import Mathlib

/-!
Verification of two online-learning components against their specification:

* `Hofm` embeds the Higher-Order Factorization Machine base class
  (src/creme/facto/hofm.py): the interaction computation
  `_calculate_interactions` / `_calculate_interaction` and the latent
  gradient accumulation and update `_update_latents`.  Feature values,
  weights and latent factors are Python floats computed by exact field
  arithmetic here modelled over `ℚ`; Python float division raises
  `ZeroDivisionError` on a zero divisor, modelled by `Option`.

* `Hedge` embeds the Hedge ensemble (src/creme/ensemble/hedging.py):
  `__init__`, `fit_predict_one` and `predict_one`.  The multiplicative
  update uses `math.exp`, so this part is modelled over `ℝ`.
  Member regressors are external collaborators; a member's behaviour on
  the one instance under consideration enters only through its
  prediction, so the member pool is represented by the list of member
  predictions `preds` (one per member, in member order), and training
  the members (line 104) does not touch the weights or the return value.
-/

namespace Hofm

variable {K : Type} [DecidableEq K]

/-- Sparse feature vector: a Python dict from feature key to value,
modelled as an association list (keys pairwise distinct). -/
abbrev Instance (K : Type) := List (K × ℚ)

/-- The list `x.keys()` of a feature vector. -/
def keys (x : Instance K) : List K := x.map Prod.fst

/-- Dict access `x[j]`; keys absent from `x` carry the value 0
(the sparse-vector convention; the code only reads present keys). -/
def getv (x : Instance K) (j : K) : ℚ := (x.lookup j).getD 0

/-- Latent table `self.latents`: key → interaction order → factor index →
value (a nested `defaultdict`, hence a total function). -/
abbrev Latents (K : Type) := K → ℕ → ℕ → ℚ

/-- The HOFM state touched by the claims: the configuration stored by
`HOFM.__init__` (lines 22-42) plus the latent table. -/
structure Model (K : Type) where
  degree : ℕ
  n_factors : ℕ
  latents : Latents K
  l1_latent : ℚ
  l2_latent : ℚ

/-- HOFM.__init__ (lines 22-42): every argument is stored as given; the
body consists solely of attribute assignments and performs no
validation of `degree` or of any other argument. -/
def init (degree n_factors : ℕ) (latents : Latents K) (l1_latent l2_latent : ℚ) :
    Model K :=
  { degree := degree
    n_factors := n_factors
    latents := latents
    l1_latent := l1_latent
    l2_latent := l2_latent }

/-- The interaction orders `range(2, self.degree + 1)` iterated by
`_calculate_interactions` and `_update_latents`. -/
def orders (degree : ℕ) : List ℕ := List.range' 2 (degree + 1 - 2)

/-- HOFM._calculate_interaction (lines 62-68): for one combination `c` of
keys at order `l`, the product of the feature values times the
factor-wise sum of products of the order-`l` latent components. -/
def calculate_interaction (m : Model K) (x : Instance K) (l : ℕ) (c : List K) : ℚ :=
  (c.map (getv x)).prod *
    ((List.range m.n_factors).map fun f => (c.map fun j => m.latents j l f).prod).sum

/-- HOFM._calculate_interactions (lines 54-60): sum of
`_calculate_interaction` over every order `l` in `range(2, degree + 1)`
and every size-`l` combination of `x.keys()` (via
`itertools.combinations`, modelled by `List.sublistsLen`). -/
def calculate_interactions (m : Model K) (x : Instance K) : ℚ :=
  ((orders m.degree).map fun l =>
    (((keys x).sublistsLen l).map fun c => calculate_interaction m x l c).sum).sum

/-- Modelled from the spec: `utils.math.sign` (an external helper used in
the regularization penalty terms), the standard sign function. -/
def sign (q : ℚ) : ℚ := if 0 < q then 1 else if q < 0 then -1 else 0

/-- Python float division `a / b`: raises `ZeroDivisionError` when
`b == 0` (also for `0.0 / 0.0`), otherwise exact division here. -/
def pydiv (a b : ℚ) : Option ℚ := if b = 0 then none else some (a / b)

/-- The local `gradients` accumulator of `_update_latents`
(`defaultdict` of `defaultdict` of `defaultdict(float)`, lines 86-90):
key → order → factor → accumulated value, initially all zero. -/
abbrev Grads (K : Type) := K → ℕ → ℕ → ℚ

/-- The all-zero initial gradient table. -/
def grads0 : Grads K := fun _ _ _ => 0

/-- Pointwise write `gradients[j][l][f] = q`. -/
def gupdate (g : Grads K) (j : K) (l f : ℕ) (q : ℚ) : Grads K :=
  fun j' l' f' => if j' = j ∧ l' = l ∧ f' = f then q else g j' l' f'

/-- Phase 1 of HOFM._update_latents (lines 92-101): for every order `l`,
combination, factor `f` and key `j` of the combination, accumulate
`feature_product * latent_product / v[j][l][f]` into
`gradients[j][l][f]`.  The division is Python float division, so the
whole accumulation raises (returns `none`) as soon as a divisor
`v[j][l][f]` is exactly zero. -/
def accumulate_gradients (m : Model K) (x : Instance K) : Option (Grads K) :=
  (orders m.degree).foldlM (fun g l =>
    ((keys x).sublistsLen l).foldlM (fun g c =>
      let fp := (c.map (getv x)).prod
      (List.range m.n_factors).foldlM (fun g f =>
        let lp := (c.map fun j => m.latents j l f).prod
        c.foldlM (fun g j =>
          (pydiv (fp * lp) (m.latents j l f)).map fun q => gupdate g j l f (g j l f + q))
          g) g) g) grads0

/-- One call record handed to
`self.latent_optimizer.update_after_pred(w=..., g=...)` (lines 106-112):
the key, the order, and the two factor-indexed arguments. -/
structure Call (K : Type) where
  key : K
  order : ℕ
  w : ℕ → ℚ
  g : ℕ → ℚ

/-- The penalized gradient dict built at lines 108-111 from a latent
table `v`:  `g_loss * gradients[j][l][f] + l1 * sign(v[j][l][f]) +
2 * l2 * v[j][l][f]` for each factor `f`. -/
def penalized (l1 l2 g_loss : ℚ) (grads : Grads K) (v : Latents K) (j : K) (l : ℕ) :
    ℕ → ℚ :=
  fun f => g_loss * grads j l f + l1 * sign (v j l f) + 2 * l2 * v j l f

/-- Replace the latent vector of `(j, l)` (the assignment
`self.latents[j][l] = ...` at line 106). -/
def lupdate (v : Latents K) (j : K) (l : ℕ) (w : ℕ → ℚ) : Latents K :=
  fun j' l' f' => if j' = j ∧ l' = l then w f' else v j' l' f'

/-- Inner loop of phase 2 of `_update_latents` (lines 105-112) for a
fixed key `j`: iterate the orders, reading the CURRENT latent table
(`v` at line 107 aliases `self.latents`), handing `(w, g)` to the
optimizer and storing its result back, threading the mutated table.
Also records the calls made. -/
def inner_updates (m : Model K) (opt : (ℕ → ℚ) → (ℕ → ℚ) → ℕ → ℚ) (g_loss : ℚ)
    (grads : Grads K) (j : K) : List ℕ → Latents K → Latents K × List (Call K)
  | [], v => (v, [])
  | l :: ls, v =>
    let w := fun f => v j l f
    let g := penalized m.l1_latent m.l2_latent g_loss grads v j l
    let r := inner_updates m opt g_loss grads j ls (lupdate v j l (opt w g))
    (r.1, { key := j, order := l, w := w, g := g } :: r.2)

/-- Outer loop of phase 2 of `_update_latents` (lines 104-112): iterate
the keys of `x`, threading the mutated latent table. -/
def outer_updates (m : Model K) (opt : (ℕ → ℚ) → (ℕ → ℚ) → ℕ → ℚ) (g_loss : ℚ)
    (grads : Grads K) : List K → Latents K → Latents K × List (Call K)
  | [], v => (v, [])
  | j :: js, v =>
    let r1 := inner_updates m opt g_loss grads j (orders m.degree) v
    let r2 := outer_updates m opt g_loss grads js r1.1
    (r2.1, r1.2 ++ r2.2)

/-- HOFM._update_latents (lines 80-112): accumulate all gradients
(phase 1), then — only if no division raised — walk the keys and orders
applying the latent optimizer (phase 2).  Returns the final latent
table and the trace of optimizer calls. -/
def update_latents (m : Model K) (opt : (ℕ → ℚ) → (ℕ → ℚ) → ℕ → ℚ) (g_loss : ℚ)
    (x : Instance K) : Option (Latents K × List (Call K)) :=
  (accumulate_gradients m x).map fun grads =>
    outer_updates m opt g_loss grads (keys x) m.latents

/-- The claim C5 spec-side interaction formula, written from the spec
text: the sum over each order `l` from 2 to `degree` and each size-`l`
combination `C` of distinct keys of `x` (an unordered subset, hence a
`Finset`) of the product of the feature values over `C` times the sum
over factor dimensions of the product of the order-`l` latent
components over `C`. -/
def spec_interactions (m : Model K) (x : Instance K) : ℚ :=
  ∑ l ∈ Finset.Icc 2 m.degree, ∑ C ∈ (keys x).toFinset.powersetCard l,
    (∏ j ∈ C, getv x j) *
      ∑ f ∈ Finset.range m.n_factors, ∏ j ∈ C, m.latents j l f

/-- The claim C7 spec-side closed form for degree 2: the pairwise
factorization-machine expression
`Σ_f ((Σ_j latent[j][2][f] * x[j])^2 - Σ_j latent[j][2][f]^2 * x[j]^2) / 2`. -/
def pairwise_fm (m : Model K) (x : Instance K) : ℚ :=
  ((List.range m.n_factors).map fun f =>
    (((keys x).map fun j => m.latents j 2 f * getv x j).sum ^ 2
      - ((keys x).map fun j => m.latents j 2 f ^ 2 * getv x j ^ 2).sum) / 2).sum

/-- A concrete two-key instance (all feature values 1) for concrete checks. -/
def xex : Instance ℕ := [(0, 1), (1, 1)]

/-- A concrete degree-2 model whose key-0 latent components are all
exactly zero (e.g. produced by the `Zeros` initializer). -/
def mz : Model ℕ :=
  { degree := 2
    n_factors := 1
    latents := fun j _ _ => if j = 0 then 0 else 1
    l1_latent := 0
    l2_latent := 0 }

/-- A concrete degree-2 model with two factors whose key-1 latent
component at factor 1 is exactly zero. -/
def mz1 : Model ℕ :=
  { degree := 2
    n_factors := 2
    latents := fun j _ f => if j = 1 ∧ f = 1 then 0 else 1
    l1_latent := 0
    l2_latent := 0 }

/-- A concrete degree-2 model with all latent components equal to 1
(every gradient division is well defined). -/
def mone : Model ℕ :=
  { degree := 2
    n_factors := 1
    latents := fun _ _ _ => 1
    l1_latent := 0
    l2_latent := 0 }

end Hofm

namespace Hedge

/-- HedgeRegressor.__init__ line 86: `self.weights = [1.] * len(regressors)`.
The constructor stores the members, loss and learning rate and builds
this list; it performs no validation (an empty member list is accepted
and yields the empty weight list). -/
def init_weights (n : ℕ) : List ℝ := List.replicate n 1

/-- The multiplicative update of one weight (line 102):
`weights[i] *= math.exp(-learning_rate * loss)` where
`loss = self.loss(y_true=y, y_pred=y_pred)` (line 101). -/
noncomputable def mult_weight (lr : ℝ) (loss : ℝ → ℝ → ℝ) (y w p : ℝ) : ℝ :=
  w * Real.exp (-lr * loss y p)

/-- The member loop of `fit_predict_one` (lines 97-104), iterating the
(weight, prediction) pairs in member order and threading
`y_pred_mean`, `total` and the updated weight list:
`y_pred_mean += weights[i] * (y_pred - y_pred_mean) / len(self)`,
then the multiplicative weight update, then `total += weights[i]`.
`n` is `len(self)`, the member count. -/
noncomputable def loop (lr : ℝ) (loss : ℝ → ℝ → ℝ) (y : ℝ) (n : ℕ) :
    List ℝ → List ℝ → ℝ → ℝ → ℝ × ℝ × List ℝ
  | [], _, mean, total => (mean, total, [])
  | _ :: _, [], mean, total => (mean, total, [])
  | w :: ws, p :: ps, mean, total =>
    let mean' := mean + w * (p - mean) / (n : ℝ)
    let w' := mult_weight lr loss y w p
    let r := loop lr loss y n ws ps mean' (total + w')
    (r.1, r.2.1, w' :: r.2.2)

/-- The post-multiplicative (pre-normalization) weight list: what
`self.weights` holds after line 102 has run for every member. -/
noncomputable def mult_weights (lr : ℝ) (loss : ℝ → ℝ → ℝ) (y : ℝ)
    (ws ps : List ℝ) : List ℝ :=
  (ws.zip ps).map fun q => mult_weight lr loss y q.1 q.2

/-- The accumulated `total` (line 103): the sum of the
post-multiplicative weights. -/
noncomputable def total (lr : ℝ) (loss : ℝ → ℝ → ℝ) (y : ℝ) (ws ps : List ℝ) : ℝ :=
  (mult_weights lr loss y ws ps).sum

/-- HedgeRegressor.fit_predict_one (lines 92-111): run the member loop
from `y_pred_mean = 0.`, `total = 0`, then — only `if total:` is
nonzero (lines 107-109) — divide every weight by `total`.  Returns the
pair of the returned `y_pred_mean` and the final `self.weights`. -/
noncomputable def fit_predict_one (lr : ℝ) (loss : ℝ → ℝ → ℝ) (y : ℝ)
    (ws ps : List ℝ) : ℝ × List ℝ :=
  let r := loop lr loss y ps.length ws ps 0 0
  (r.1, if r.2.1 = 0 then r.2.2 else r.2.2.map fun w => w / r.2.1)

/-- HedgeRegressor.predict_one (lines 117-118):
`sum(model.predict_one(x) * weight for model, weight in zip(self, self.weights))`
(`sum` of the empty generator is `0`). -/
noncomputable def predict_one (ws preds : List ℝ) : ℝ :=
  ((preds.zip ws).map fun q => q.1 * q.2).sum

/-- Modelled from the spec: the plain weighted average of the member
predictions under the given weights (claim C2 compares
`fit_predict_one`'s returned value against this). -/
noncomputable def weighted_average (ws ps : List ℝ) : ℝ :=
  ((ws.zip ps).map fun q => q.1 * q.2).sum / ws.sum

/-- A concrete loss function (identically zero) used to instantiate the
external loss collaborator in witnesses. -/
def zloss : ℝ → ℝ → ℝ := fun _ _ => 0

/-- A concrete loss function returning the prediction itself, used to
instantiate the external loss collaborator in witnesses. -/
def idloss : ℝ → ℝ → ℝ := fun _ p => p

end Hedge

/-! ## Helper lemmas -/

theorem Hedge.loop_weights (lr : ℝ) (loss : ℝ → ℝ → ℝ) (y : ℝ) (n : ℕ) (ws : List ℝ) :
    ∀ (ps : List ℝ) (mean t : ℝ),
      (Hedge.loop lr loss y n ws ps mean t).2.2 = Hedge.mult_weights lr loss y ws ps := by
  induction ws with
  | nil => intro ps mean t; simp [Hedge.loop, Hedge.mult_weights]
  | cons w ws ih =>
    intro ps mean t
    cases ps with
    | nil => simp [Hedge.loop, Hedge.mult_weights]
    | cons p ps => simp [Hedge.loop, Hedge.mult_weights, ih]

theorem Hedge.loop_total (lr : ℝ) (loss : ℝ → ℝ → ℝ) (y : ℝ) (n : ℕ) (ws : List ℝ) :
    ∀ (ps : List ℝ) (mean t : ℝ),
      (Hedge.loop lr loss y n ws ps mean t).2.1 = t + Hedge.total lr loss y ws ps := by
  induction ws with
  | nil => intro ps mean t; simp [Hedge.loop, Hedge.total, Hedge.mult_weights]
  | cons w ws ih =>
    intro ps mean t
    cases ps with
    | nil => simp [Hedge.loop, Hedge.total, Hedge.mult_weights]
    | cons p ps =>
      simp only [Hedge.loop, ih, Hedge.total, Hedge.mult_weights, List.zip_cons_cons,
        List.map_cons, List.sum_cons]
      ring

theorem list_sum_map_div (l : List ℝ) (t : ℝ) :
    (l.map fun w => w / t).sum = l.sum / t := by
  induction l with
  | nil => simp
  | cons a l ih => simp [ih, add_div]

/-! ## Claim theorems: Hedge ensemble -/

/-- C10: a HedgeRegressor constructed with an empty member list works at
use time: for every learning rate, loss and label, `fit_predict_one`
returns `0.0` with the (empty) weight list unchanged — the member loop
never runs, `total` stays `0`, so renormalization is skipped — and
`predict_one` returns `0`. -/
theorem hedge_empty_ensemble_ok (lr : ℝ) (loss : ℝ → ℝ → ℝ) (y : ℝ) :
    Hedge.fit_predict_one lr loss y (Hedge.init_weights 0) [] = (0, Hedge.init_weights 0) ∧
      Hedge.predict_one (Hedge.init_weights 0) [] = 0 := by
  simp [Hedge.fit_predict_one, Hedge.loop, Hedge.init_weights, Hedge.predict_one]

/-- C4: after any single `fit_predict_one` call (hence after each call of
any sequence), if the post-multiplicative-update weight total is
nonzero then the weights sum to exactly 1, and if the total is exactly
zero the weights are left at their post-multiplicative values with no
division performed. -/
theorem hedge_weights_sum_one (lr : ℝ) (loss : ℝ → ℝ → ℝ) (y : ℝ) (ws ps : List ℝ) :
    (Hedge.total lr loss y ws ps ≠ 0 →
      (Hedge.fit_predict_one lr loss y ws ps).2.sum = 1) ∧
    (Hedge.total lr loss y ws ps = 0 →
      (Hedge.fit_predict_one lr loss y ws ps).2 = Hedge.mult_weights lr loss y ws ps) := by
  have hw := Hedge.loop_weights lr loss y ps.length ws ps 0 0
  have ht := Hedge.loop_total lr loss y ps.length ws ps 0 0
  rw [zero_add] at ht
  constructor
  · intro h
    simp only [Hedge.fit_predict_one, ht, hw, if_neg h, list_sum_map_div]
    rw [← Hedge.total, div_self h]
  · intro h
    simp only [Hedge.fit_predict_one, ht, hw, if_pos h]

/-- C4 witness: a concrete one-member run with nonzero total whose
post-call weights sum to 1. -/
theorem hedge_weights_sum_one_witness :
    Hedge.total 0 Hedge.zloss 0 [1] [0] ≠ 0 ∧
      (Hedge.fit_predict_one 0 Hedge.zloss 0 [1] [0]).2.sum = 1 := by
  have h : Hedge.total 0 Hedge.zloss 0 [1] [0] ≠ 0 := by
    norm_num [Hedge.total, Hedge.mult_weights, Hedge.mult_weight, Hedge.zloss]
  exact ⟨h, (hedge_weights_sum_one 0 Hedge.zloss 0 [1] [0]).1 h⟩

/-- C8: for two members with strictly positive pre-update weights, a
strictly positive learning rate and losses `loss_a < loss_b` on the
same sample, the post-multiplicative (pre-normalization) weight ratio
`weight_a / weight_b` strictly exceeds the pre-update ratio. -/
theorem hedge_ratio_increases (lr : ℝ) (loss : ℝ → ℝ → ℝ) (y wa wb pa pb : ℝ)
    (hwa : 0 < wa) (hwb : 0 < wb) (hlr : 0 < lr)
    (hab : loss y pa < loss y pb) :
    wa / wb <
      Hedge.mult_weight lr loss y wa pa / Hedge.mult_weight lr loss y wb pb := by
  unfold Hedge.mult_weight
  have heb : (0:ℝ) < Real.exp (-lr * loss y pb) := Real.exp_pos _
  have hlt : Real.exp (-lr * loss y pb) < Real.exp (-lr * loss y pa) := by
    apply Real.exp_lt_exp.mpr
    nlinarith
  rw [div_lt_div_iff₀ hwb (by positivity)]
  nlinarith [mul_lt_mul_of_pos_left hlt (mul_pos hwa hwb)]

/-- C8 witness: two unit-weight members with losses 0 < 1 under the
identity loss; the pre-normalization ratio strictly increases. -/
theorem hedge_ratio_increases_witness :
    ((0:ℝ) < 1 ∧ (0:ℝ) < 1 ∧ Hedge.idloss 0 0 < Hedge.idloss 0 1) ∧
      (1:ℝ) / 1 <
        Hedge.mult_weight 1 Hedge.idloss 0 1 0 / Hedge.mult_weight 1 Hedge.idloss 0 1 1 :=
  ⟨⟨by norm_num, by norm_num, by norm_num [Hedge.idloss]⟩,
    hedge_ratio_increases 1 Hedge.idloss 0 1 1 0 1 (by norm_num) (by norm_num)
      (by norm_num) (by norm_num [Hedge.idloss])⟩

/-- C9 counterexample: for the (legal) empty ensemble the claim fails —
after construction with zero members the post-update total is exactly
`0`, not positive, and the `total == 0` skip branch IS reached (the
weights are left at their post-multiplicative, i.e. empty, value). -/
theorem hedge_total_zero_for_empty :
    Hedge.total 1 Hedge.zloss 0 (Hedge.init_weights 0) [] = 0 ∧
      (Hedge.fit_predict_one 1 Hedge.zloss 0 (Hedge.init_weights 0) []).2 =
        Hedge.mult_weights 1 Hedge.zloss 0 (Hedge.init_weights 0) [] := by
  constructor
  · simp [Hedge.total, Hedge.mult_weights, Hedge.init_weights]
  · simp [Hedge.fit_predict_one, Hedge.loop, Hedge.init_weights, Hedge.mult_weights]

/-- C9 amended: for a NONEMPTY member list, every weight is strictly
positive after construction (`[1.] * n`) and, whenever all pre-update
weights are strictly positive, the post-update total is strictly
positive (so the `total == 0` branch is not taken) and every weight is
again strictly positive after `fit_predict_one`. -/
theorem hedge_weights_stay_positive (lr : ℝ) (loss : ℝ → ℝ → ℝ) (y : ℝ)
    (ws ps : List ℝ) (n : ℕ) (hne : ws ≠ []) (hlen : ws.length = ps.length)
    (hpos : ∀ w ∈ ws, 0 < w) :
    (∀ w ∈ Hedge.init_weights n, (0:ℝ) < w) ∧
      0 < Hedge.total lr loss y ws ps ∧
      ∀ w ∈ (Hedge.fit_predict_one lr loss y ws ps).2, 0 < w := by
  have hmem : ∀ w ∈ Hedge.mult_weights lr loss y ws ps, 0 < w := by
    intro w hw
    rcases List.mem_map.mp hw with ⟨⟨a, b⟩, hab, rfl⟩
    exact mul_pos (hpos a (List.of_mem_zip hab).1) (Real.exp_pos _)
  have hne' : Hedge.mult_weights lr loss y ws ps ≠ [] := by
    have : (Hedge.mult_weights lr loss y ws ps).length = ws.length := by
      simp [Hedge.mult_weights, hlen]
    intro hnil
    rw [hnil] at this
    exact hne (List.eq_nil_of_length_eq_zero this.symm)
  have htot : 0 < Hedge.total lr loss y ws ps := List.sum_pos _ hmem hne'
  refine ⟨?_, htot, ?_⟩
  · intro w hw
    rw [List.eq_of_mem_replicate hw]
    norm_num
  · have hw := Hedge.loop_weights lr loss y ps.length ws ps 0 0
    have ht := Hedge.loop_total lr loss y ps.length ws ps 0 0
    rw [zero_add] at ht
    intro w hwm
    simp only [Hedge.fit_predict_one, ht, hw, if_neg (ne_of_gt htot)] at hwm
    rcases List.mem_map.mp hwm with ⟨a, ha, rfl⟩
    exact div_pos (hmem a ha) htot

/-- C9 amended witness: a concrete one-member ensemble with positive
weight keeps positive weights and positive total. -/
theorem hedge_weights_stay_positive_witness :
    (([1]:List ℝ) ≠ [] ∧ ([1]:List ℝ).length = ([0]:List ℝ).length ∧
        ∀ w ∈ ([1]:List ℝ), (0:ℝ) < w) ∧
      ((∀ w ∈ Hedge.init_weights 3, (0:ℝ) < w) ∧
        0 < Hedge.total 1 Hedge.zloss 0 [1] [0] ∧
        ∀ w ∈ (Hedge.fit_predict_one 1 Hedge.zloss 0 [1] [0]).2, 0 < w) :=
  ⟨⟨by simp, by simp, by simp⟩,
    hedge_weights_stay_positive 1 Hedge.zloss 0 [1] [0] 3 (by simp) (by simp) (by simp)⟩

/-- C2 (code bug, evaluated at the failing input): with two fresh members
(weights `[1, 1]`) predicting `2` and `0`, the single left-to-right pass
`y_pred_mean += weights[i] * (y_pred - y_pred_mean) / len(self)` returns
`1/2`, while the plain weighted average of the member predictions under
those pre-update weights is `1`; visiting the same members in the
opposite order returns `1` — so the returned value is neither the
weighted average nor independent of the visiting order.  (Learning rate
0 and the zero loss keep the weight update neutral; the returned mean
never depends on the losses.) -/
theorem hedge_mean_not_weighted_average :
    (Hedge.fit_predict_one 0 Hedge.zloss 0 [1, 1] [2, 0]).1 = 1 / 2 ∧
      (Hedge.fit_predict_one 0 Hedge.zloss 0 [1, 1] [0, 2]).1 = 1 ∧
      Hedge.weighted_average [1, 1] [2, 0] = 1 ∧
      Hedge.weighted_average [1, 1] [0, 2] = 1 := by
  norm_num [Hedge.fit_predict_one, Hedge.loop, Hedge.mult_weight, Hedge.zloss,
    Hedge.weighted_average]

/-! ## Claim theorems: HOFM gradient accumulation (zero latent component) -/

theorem foldlM_fails {α β : Type} {F : β → α → Option β} {l : List α} {a : α}
    (ha : a ∈ l) (h : ∀ b, F b a = none) : ∀ b, l.foldlM F b = none := by
  induction l with
  | nil => cases ha
  | cons a' l ih =>
    intro b
    rcases List.mem_cons.mp ha with rfl | ha'
    · simp [List.foldlM_cons, h b]
    · cases hF : F b a' with
      | none => simp [List.foldlM_cons, hF]
      | some b' => simp [List.foldlM_cons, hF, ih ha' b']

/-- C1 counterexample: for the two-key instance `xex` and the model `mz`
whose key-0 order-2 latent component is exactly `0`, the latent-gradient
accumulation of `_update_latents` does NOT complete: the division
`feature_product * latent_product / v[j][l][f]` is `0.0 / 0.0`, which
raises `ZeroDivisionError` in Python (here: `none`); no zero
contribution is recorded. -/
theorem hofm_zero_latent_raises_cx :
    Hofm.accumulate_gradients Hofm.mz Hofm.xex = none := by
  rfl

/-- C1 amended: whenever some enumerated combination `c` (of size `l`,
with `2 ≤ l ≤ degree`, over the keys of `x`) contains a key `j` whose
order-`l` latent component at some factor `f < n_factors` is exactly
zero, the latent-gradient accumulation of `_update_latents` raises
`ZeroDivisionError` (returns `none`) instead of treating the
combination as a zero contribution. -/
theorem hofm_zero_latent_raises {K : Type} [DecidableEq K] (m : Hofm.Model K)
    (x : Hofm.Instance K) (l f : ℕ) (j : K) (c : List K)
    (hl : l ∈ Hofm.orders m.degree) (hc : c ∈ (Hofm.keys x).sublistsLen l)
    (hj : j ∈ c) (hf : f < m.n_factors) (hv : m.latents j l f = 0) :
    Hofm.accumulate_gradients m x = none := by
  unfold Hofm.accumulate_gradients
  refine foldlM_fails hl (fun g => ?_) _
  refine foldlM_fails hc (fun g => ?_) _
  refine foldlM_fails (List.mem_range.mpr hf) (fun g => ?_) _
  refine foldlM_fails hj (fun g => ?_) _
  simp [Hofm.pydiv, hv]

/-- C1 amended witness: the model `mz1` has a zero latent component for
key 1 at factor 1; the accumulation over `xex` raises. -/
theorem hofm_zero_latent_raises_witness :
    (2 ∈ Hofm.orders Hofm.mz1.degree ∧
        [0, 1] ∈ (Hofm.keys Hofm.xex).sublistsLen 2 ∧
        1 ∈ [0, 1] ∧ 1 < Hofm.mz1.n_factors ∧ Hofm.mz1.latents 1 2 1 = 0) ∧
      Hofm.accumulate_gradients Hofm.mz1 Hofm.xex = none :=
  ⟨⟨by decide, by decide, by decide, by decide, by decide⟩,
    hofm_zero_latent_raises Hofm.mz1 Hofm.xex 2 1 1 [0, 1] (by decide) (by decide)
      (by decide) (by decide) (by decide)⟩

/-! ## Claim theorems: construction-time validation -/

/-- C3 counterexample: neither constructor rejects the configurations
the claim says must be rejected.  `HOFM.__init__` contains only
attribute assignments, so constructing with `degree = 1` succeeds and
stores `degree = 1`; `HedgeRegressor.__init__` accepts an empty member
list and builds the empty weight list; and both misconfigured objects
even process their first sample without error (`degree < 2` yields an
empty order range, the empty ensemble returns `0`). -/
theorem no_construction_validation_cx :
    (Hofm.init (K := ℕ) 1 4 (fun _ _ _ => 1) 0 0).degree = 1 ∧
      Hofm.calculate_interactions (Hofm.init (K := ℕ) 1 4 (fun _ _ _ => 1) 0 0) Hofm.xex = 0 ∧
      Hedge.init_weights 0 = [] ∧
      Hedge.fit_predict_one 1 Hedge.zloss 0 (Hedge.init_weights 0) [] =
        (0, Hedge.init_weights 0) := by
  refine ⟨rfl, by decide, by simp [Hedge.init_weights], ?_⟩
  simp [Hedge.fit_predict_one, Hedge.loop, Hedge.init_weights]

/-- C3 amended: construction performs no validation at all — a HOFM
with `degree < 2` and a HedgeRegressor with an empty member list are
both accepted at construction (the degree is stored verbatim, the
weight list is empty), and the first use also proceeds without error:
the interaction sum of a `degree < 2` model is `0` and the empty
ensemble's `fit_predict_one` returns `0` leaving the state unchanged. -/
theorem no_construction_validation {K : Type} [DecidableEq K] (degree n_factors : ℕ)
    (lat : Hofm.Latents K) (l1 l2 : ℚ) (x : Hofm.Instance K)
    (lr : ℝ) (loss : ℝ → ℝ → ℝ) (y : ℝ) (hdeg : degree < 2) :
    (Hofm.init degree n_factors lat l1 l2).degree = degree ∧
      Hofm.calculate_interactions (Hofm.init degree n_factors lat l1 l2) x = 0 ∧
      Hedge.init_weights 0 = [] ∧
      Hedge.fit_predict_one lr loss y (Hedge.init_weights 0) [] =
        (0, Hedge.init_weights 0) := by
  have h0 : degree + 1 - 2 = 0 := by omega
  refine ⟨rfl, ?_, by simp [Hedge.init_weights], ?_⟩
  · simp [Hofm.calculate_interactions, Hofm.orders, Hofm.init, h0]
  · simp [Hedge.fit_predict_one, Hedge.loop, Hedge.init_weights]

/-- C3 amended witness: the concrete misconfigurations `degree = 1` and
zero members are both accepted and usable. -/
theorem no_construction_validation_witness :
    (1 < 2) ∧
      ((Hofm.init (K := ℕ) 1 7 (fun _ _ _ => 2) 1 1).degree = 1 ∧
        Hofm.calculate_interactions (Hofm.init (K := ℕ) 1 7 (fun _ _ _ => 2) 1 1)
          Hofm.xex = 0 ∧
        Hedge.init_weights 0 = [] ∧
        Hedge.fit_predict_one 2 Hedge.idloss 1 (Hedge.init_weights 0) [] =
          (0, Hedge.init_weights 0)) :=
  ⟨by norm_num,
    no_construction_validation 1 7 (fun _ _ _ => 2) 1 1 Hofm.xex 2 Hedge.idloss 1
      (by norm_num)⟩

/-! ## Claim theorems: the interaction formula -/

theorem list_sum_range (n : ℕ) (F : ℕ → ℚ) :
    ((List.range n).map F).sum = ∑ f ∈ Finset.range n, F f := by
  rw [Finset.sum_eq_multiset_sum]
  change _ = (Multiset.map F ↑(List.range n)).sum
  rw [Multiset.map_coe, Multiset.sum_coe]

theorem list_sum_Icc (a b : ℕ) (F : ℕ → ℚ) :
    ((List.range' a (b + 1 - a)).map F).sum = ∑ l ∈ Finset.Icc a b, F l := by
  rw [Nat.Icc_eq_range', Finset.sum_eq_multiset_sum]
  change _ = (Multiset.map F ↑(List.range' a (b + 1 - a))).sum
  rw [Multiset.map_coe, Multiset.sum_coe]

theorem sublistsLen_sum_powersetCard {K : Type} [DecidableEq K] (ks : List K)
    (hnd : ks.Nodup) (n : ℕ) (G : Multiset K → ℚ) :
    ((ks.sublistsLen n).map fun c => G (Multiset.ofList c)).sum =
      ∑ C ∈ ks.toFinset.powersetCard n, G C.val := by
  rw [Finset.sum_eq_multiset_sum]
  have h1 : Multiset.map (fun C => G C.val) (ks.toFinset.powersetCard n).val
      = Multiset.map G (Multiset.map Finset.val (ks.toFinset.powersetCard n).val) := by
    rw [Multiset.map_map]
    rfl
  rw [h1, Finset.map_val_val_powersetCard]
  have h2 : ks.toFinset.val = Multiset.ofList ks := by
    rw [List.toFinset_val]
    exact congrArg _ (List.dedup_eq_self.mpr hnd)
  rw [h2, Multiset.powersetCard_coe, Multiset.map_coe, Multiset.sum_coe, List.map_map]
  apply congrArg
  apply List.map_congr_left
  intro c _
  rfl

/-- C5: for every instance with pairwise-distinct keys,
`_calculate_interactions` equals the spec formula — the sum over each
order `l` from 2 to `degree` and each size-`l` subset `C` of the keys
of the product of feature values over `C` times the factor-wise sum of
products of the order-`l` latent components over `C`; moreover an order
with fewer than `l` active keys contributes `0`, and with fewer than 2
keys the whole interaction sum is `0`. -/
theorem hofm_interactions_formula {K : Type} [DecidableEq K] (m : Hofm.Model K)
    (x : Hofm.Instance K) (hnd : (Hofm.keys x).Nodup) :
    Hofm.calculate_interactions m x = Hofm.spec_interactions m x ∧
      (∀ l, (Hofm.keys x).length < l →
        (((Hofm.keys x).sublistsLen l).map fun c =>
          Hofm.calculate_interaction m x l c).sum = 0) ∧
      ((Hofm.keys x).length < 2 → Hofm.calculate_interactions m x = 0) := by
  have hord : ∀ l ∈ Hofm.orders m.degree, 2 ≤ l := by
    intro l hl
    have := (List.mem_range'_1.mp hl).1
    omega
  have hper : ∀ l : ℕ,
      (((Hofm.keys x).sublistsLen l).map fun c =>
        Hofm.calculate_interaction m x l c).sum =
      ∑ C ∈ (Hofm.keys x).toFinset.powersetCard l,
        (∏ j ∈ C, Hofm.getv x j) *
          ∑ f ∈ Finset.range m.n_factors, ∏ j ∈ C, m.latents j l f := by
    intro l
    have hG := sublistsLen_sum_powersetCard (Hofm.keys x) hnd l
      (fun s => (s.map (Hofm.getv x)).prod *
        ∑ f ∈ Finset.range m.n_factors, (s.map fun j => m.latents j l f).prod)
    have hcode : (((Hofm.keys x).sublistsLen l).map fun c =>
        Hofm.calculate_interaction m x l c).sum =
        (((Hofm.keys x).sublistsLen l).map fun c =>
          ((Multiset.ofList c).map (Hofm.getv x)).prod *
            ∑ f ∈ Finset.range m.n_factors,
              ((Multiset.ofList c).map fun j => m.latents j l f).prod).sum := by
      apply congrArg
      apply List.map_congr_left
      intro c _
      rw [Hofm.calculate_interaction, list_sum_range]
      rfl
    rw [hcode, hG]
    apply Finset.sum_congr rfl
    intro C _
    rw [Finset.prod_eq_multiset_prod]
    apply congrArg
    apply Finset.sum_congr rfl
    intro f _
    rw [Finset.prod_eq_multiset_prod]
  have hempty : ∀ l, (Hofm.keys x).length < l →
      (((Hofm.keys x).sublistsLen l).map fun c =>
        Hofm.calculate_interaction m x l c).sum = 0 := by
    intro l hl
    rw [List.sublistsLen_of_length_lt hl]
    rfl
  refine ⟨?_, hempty, ?_⟩
  · rw [Hofm.calculate_interactions, Hofm.spec_interactions, Hofm.orders, list_sum_Icc]
    exact Finset.sum_congr rfl fun l _ => hper l
  · intro h2
    rw [Hofm.calculate_interactions]
    have hz : ∀ l ∈ Hofm.orders m.degree,
        (((Hofm.keys x).sublistsLen l).map fun c =>
          Hofm.calculate_interaction m x l c).sum = 0 := by
      intro l hl
      exact hempty l (lt_of_lt_of_le h2 (hord l hl))
    rw [List.map_congr_left fun l hl => hz l hl]
    simp

/-- C5 witness: the concrete model `mone` on the two-key instance `xex`
(whose key list is duplicate-free) satisfies the formula. -/
theorem hofm_interactions_formula_witness :
    (Hofm.keys Hofm.xex).Nodup ∧
      (Hofm.calculate_interactions Hofm.mone Hofm.xex =
          Hofm.spec_interactions Hofm.mone Hofm.xex ∧
        (∀ l, (Hofm.keys Hofm.xex).length < l →
          (((Hofm.keys Hofm.xex).sublistsLen l).map fun c =>
            Hofm.calculate_interaction Hofm.mone Hofm.xex l c).sum = 0) ∧
        ((Hofm.keys Hofm.xex).length < 2 →
          Hofm.calculate_interactions Hofm.mone Hofm.xex = 0)) :=
  ⟨by decide, hofm_interactions_formula Hofm.mone Hofm.xex (by decide)⟩

/-! ## Claim theorems: degree-2 closed form -/

theorem list_map_finset_sum_swap {α : Type} (L : List α) (s : Finset ℕ) (h : α → ℕ → ℚ) :
    (L.map fun c => ∑ f ∈ s, h c f).sum = ∑ f ∈ s, (L.map fun c => h c f).sum := by
  induction L with
  | nil => simp
  | cons c L ih => simp [ih, Finset.sum_add_distrib]

theorem sublistsLen_two_sum {K : Type} (g : K → ℚ) : ∀ ks : List K,
    ((ks.sublistsLen 2).map fun c => (c.map g).prod).sum
      = ((ks.map g).sum ^ 2 - (ks.map fun j => g j ^ 2).sum) / 2 := by
  intro ks
  induction ks with
  | nil => simp
  | cons a t ih =>
    have hsplit : List.sublistsLen 2 (a :: t)
        = List.sublistsLen 2 t ++ (List.sublistsLen 1 t).map (List.cons a) :=
      List.sublistsLen_succ_cons 1 a t
    rw [hsplit, List.map_append, List.sum_append, ih]
    have h1 : (((t.sublistsLen 1).map (List.cons a)).map fun c => (c.map g).prod).sum
        = g a * (t.map g).sum := by
      rw [List.map_map, List.sublistsLen_one, List.map_map]
      have hco : (((fun c => (List.map g c).prod) ∘ List.cons a) ∘ fun j => [j])
          = fun j => g a * g j := by
        funext j
        simp
      rw [hco, List.map_reverse, List.sum_reverse, List.sum_map_mul_left]
    rw [h1]
    simp only [List.map_cons, List.sum_cons]
    ring

/-- C7: for a HOFM with `degree = 2`, the interaction term produced by
enumerating pairwise combinations equals the closed-form pairwise
factorization-machine expression
`Σ_f ((Σ_j latent[j][2][f] * x[j])^2 - Σ_j latent[j][2][f]^2 * x[j]^2) / 2`,
for every instance and every assignment of latent values. -/
theorem hofm_degree2_closed_form {K : Type} [DecidableEq K] (m : Hofm.Model K)
    (x : Hofm.Instance K) (hdeg : m.degree = 2) :
    Hofm.calculate_interactions m x = Hofm.pairwise_fm m x := by
  have hords : Hofm.orders m.degree = [2] := by
    rw [hdeg]
    rfl
  rw [Hofm.calculate_interactions, hords]
  simp only [List.map_cons, List.map_nil, List.sum_cons, List.sum_nil, add_zero]
  rw [Hofm.pairwise_fm, list_sum_range]
  have hc : ∀ c : List K, Hofm.calculate_interaction m x 2 c
      = ∑ f ∈ Finset.range m.n_factors,
          (c.map fun j => m.latents j 2 f * Hofm.getv x j).prod := by
    intro c
    rw [Hofm.calculate_interaction, list_sum_range, Finset.mul_sum]
    apply Finset.sum_congr rfl
    intro f _
    rw [← List.prod_map_mul]
    apply congrArg
    apply List.map_congr_left
    intro j _
    ring
  rw [List.map_congr_left fun c _ => hc c, list_map_finset_sum_swap]
  apply Finset.sum_congr rfl
  intro f _
  rw [sublistsLen_two_sum]
  have hsq : ((Hofm.keys x).map fun j => (m.latents j 2 f * Hofm.getv x j) ^ 2).sum
      = ((Hofm.keys x).map fun j => m.latents j 2 f ^ 2 * Hofm.getv x j ^ 2).sum := by
    apply congrArg
    apply List.map_congr_left
    intro j _
    rw [mul_pow]
  rw [hsq]

/-- C7 witness: the degree-2 model `mone` on `xex` satisfies the
closed form. -/
theorem hofm_degree2_closed_form_witness :
    Hofm.mone.degree = 2 ∧
      Hofm.calculate_interactions Hofm.mone Hofm.xex = Hofm.pairwise_fm Hofm.mone Hofm.xex :=
  ⟨rfl, hofm_degree2_closed_form Hofm.mone Hofm.xex rfl⟩

/-! ## Claim theorems: gradient accumulation before any latent update -/

theorem Hofm.lupdate_ne {K : Type} [DecidableEq K] (v : Hofm.Latents K) (j : K) (l : ℕ)
    (w : ℕ → ℚ) (j' : K) (l' : ℕ) (h : ¬(j' = j ∧ l' = l)) :
    Hofm.lupdate v j l w j' l' = v j' l' := by
  funext f'
  exact if_neg h

theorem Hofm.inner_preserve {K : Type} [DecidableEq K] (m : Hofm.Model K)
    (opt : (ℕ → ℚ) → (ℕ → ℚ) → ℕ → ℚ) (g_loss : ℚ) (grads : Hofm.Grads K) (j : K) :
    ∀ (ls : List ℕ) (v : Hofm.Latents K) (j' : K) (l' : ℕ), j' ≠ j →
      (Hofm.inner_updates m opt g_loss grads j ls v).1 j' l' = v j' l' := by
  intro ls
  induction ls with
  | nil =>
    intro v j' l' _
    rfl
  | cons l ls ih =>
    intro v j' l' h
    rw [show (Hofm.inner_updates m opt g_loss grads j (l :: ls) v).1
        = (Hofm.inner_updates m opt g_loss grads j ls
            (Hofm.lupdate v j l (opt (fun f => v j l f)
              (Hofm.penalized m.l1_latent m.l2_latent g_loss grads v j l)))).1 from rfl]
    rw [ih _ j' l' h]
    exact Hofm.lupdate_ne _ _ _ _ _ _ fun hc => h hc.1

theorem Hofm.inner_calls {K : Type} [DecidableEq K] (m : Hofm.Model K)
    (opt : (ℕ → ℚ) → (ℕ → ℚ) → ℕ → ℚ) (g_loss : ℚ) (grads : Hofm.Grads K) (j : K) :
    ∀ (ls : List ℕ) (v : Hofm.Latents K), ls.Nodup →
      ∀ c ∈ (Hofm.inner_updates m opt g_loss grads j ls v).2,
        c.key = j ∧ c.order ∈ ls ∧ (c.w = fun f => v j c.order f) ∧
          c.g = Hofm.penalized m.l1_latent m.l2_latent g_loss grads v j c.order := by
  intro ls
  induction ls with
  | nil =>
    intro v _ c hc
    simp [Hofm.inner_updates] at hc
  | cons l ls ih =>
    intro v hnd c hc
    rw [show (Hofm.inner_updates m opt g_loss grads j (l :: ls) v).2
        = ({ key := j, order := l, w := fun f => v j l f,
             g := Hofm.penalized m.l1_latent m.l2_latent g_loss grads v j l } : Hofm.Call K)
          :: (Hofm.inner_updates m opt g_loss grads j ls
              (Hofm.lupdate v j l (opt (fun f => v j l f)
                (Hofm.penalized m.l1_latent m.l2_latent g_loss grads v j l)))).2 from rfl] at hc
    rcases List.mem_cons.mp hc with rfl | htail
    · exact ⟨rfl, List.mem_cons_self _ _, rfl, rfl⟩
    · obtain ⟨hkey, horder, hw, hg⟩ := ih _ (List.Nodup.of_cons hnd) c htail
      have hlnotin : l ∉ ls := (List.nodup_cons.mp hnd).1
      have hne : ¬(j = j ∧ c.order = l) := by
        intro hcon
        rw [← hcon.2] at hlnotin
        exact hlnotin horder
      have hvv : Hofm.lupdate v j l (opt (fun f => v j l f)
          (Hofm.penalized m.l1_latent m.l2_latent g_loss grads v j l)) j c.order
          = v j c.order :=
        Hofm.lupdate_ne _ _ _ _ _ _ hne
      refine ⟨hkey, List.mem_cons_of_mem _ horder, ?_, ?_⟩
      · rw [hw]
        funext f
        rw [congrFun hvv f]
      · rw [hg]
        funext f
        simp only [Hofm.penalized]
        rw [congrFun hvv f]

theorem Hofm.outer_calls {K : Type} [DecidableEq K] (m : Hofm.Model K)
    (opt : (ℕ → ℚ) → (ℕ → ℚ) → ℕ → ℚ) (g_loss : ℚ) (grads : Hofm.Grads K) :
    ∀ (ks : List K) (v : Hofm.Latents K), ks.Nodup →
      ∀ c ∈ (Hofm.outer_updates m opt g_loss grads ks v).2,
        c.key ∈ ks ∧ (c.w = fun f => v c.key c.order f) ∧
          c.g = Hofm.penalized m.l1_latent m.l2_latent g_loss grads v c.key c.order := by
  intro ks
  induction ks with
  | nil =>
    intro v _ c hc
    simp [Hofm.outer_updates] at hc
  | cons j js ih =>
    intro v hnd c hc
    rw [show (Hofm.outer_updates m opt g_loss grads (j :: js) v).2
        = (Hofm.inner_updates m opt g_loss grads j (Hofm.orders m.degree) v).2
          ++ (Hofm.outer_updates m opt g_loss grads js
              (Hofm.inner_updates m opt g_loss grads j (Hofm.orders m.degree) v).1).2
        from rfl] at hc
    rcases List.mem_append.mp hc with hin | hout
    · obtain ⟨hkey, _, hw, hg⟩ := Hofm.inner_calls m opt g_loss grads j
        (Hofm.orders m.degree) v (List.nodup_range' _ _) c hin
      refine ⟨by rw [hkey]; exact List.mem_cons_self _ _, ?_, ?_⟩
      · rw [hkey, hw]
      · rw [hkey, hg]
    · obtain ⟨hkey, hw, hg⟩ := ih _ (List.Nodup.of_cons hnd) c hout
      have hne : c.key ≠ j := by
        intro he
        have hj : j ∉ js := (List.nodup_cons.mp hnd).1
        rw [he] at hkey
        exact hj hkey
      have hpres : ∀ l', (Hofm.inner_updates m opt g_loss grads j
          (Hofm.orders m.degree) v).1 c.key l' = v c.key l' :=
        fun l' => Hofm.inner_preserve m opt g_loss grads j _ v c.key l' hne
      refine ⟨List.mem_cons_of_mem _ hkey, ?_, ?_⟩
      · rw [hw]
        funext f
        rw [congrFun (hpres c.order) f]
      · rw [hg]
        funext f
        simp only [Hofm.penalized]
        rw [congrFun (hpres c.order) f]

/-- C6: within a single `_update_latents` call (the gradient table being
any successful result of phase 1), every `(w, g)` pair handed to the
latent optimizer during the sequential phase-2 walk is computed entirely
from the pre-update latent snapshot `m.latents`: the `w` argument is the
pre-update latent vector of that key and order, and the `g` argument is
the penalized gradient built from the phase-1 table and the PRE-update
latent values — no earlier latent replacement within the same call is
visible (keys are pairwise distinct in a dict). -/
theorem hofm_gradients_snapshot {K : Type} [DecidableEq K] (m : Hofm.Model K)
    (opt : (ℕ → ℚ) → (ℕ → ℚ) → ℕ → ℚ) (g_loss : ℚ) (x : Hofm.Instance K)
    (hnd : (Hofm.keys x).Nodup) :
    ∀ grads ∈ Hofm.accumulate_gradients m x,
      ∀ c ∈ (Hofm.outer_updates m opt g_loss grads (Hofm.keys x) m.latents).2,
        (c.w = fun f => m.latents c.key c.order f) ∧
          c.g = Hofm.penalized m.l1_latent m.l2_latent g_loss grads m.latents
            c.key c.order := by
  intro grads _ c hc
  obtain ⟨_, hw, hg⟩ := Hofm.outer_calls m opt g_loss grads (Hofm.keys x) m.latents hnd c hc
  exact ⟨hw, hg⟩

/-- C6 witness: on the all-ones model `mone` and instance `xex` the
gradient accumulation succeeds (`isSome`), the key list is
duplicate-free, and the snapshot property holds for a concrete
optimizer. -/
theorem hofm_gradients_snapshot_witness :
    ((Hofm.keys Hofm.xex).Nodup ∧
        (Hofm.accumulate_gradients Hofm.mone Hofm.xex).isSome = true) ∧
      ∀ grads ∈ Hofm.accumulate_gradients Hofm.mone Hofm.xex,
        ∀ c ∈ (Hofm.outer_updates Hofm.mone (fun w _ => w) 1 grads
            (Hofm.keys Hofm.xex) Hofm.mone.latents).2,
          (c.w = fun f => Hofm.mone.latents c.key c.order f) ∧
            c.g = Hofm.penalized Hofm.mone.l1_latent Hofm.mone.l2_latent 1 grads
              Hofm.mone.latents c.key c.order :=
  ⟨⟨by decide, by rfl⟩,
    hofm_gradients_snapshot Hofm.mone (fun w _ => w) 1 Hofm.xex (by decide)⟩
